import Mathlib

/-!
Shallow embedding of `copy_tree_map.py` (repository MawKKe/copy-tree-map).

Strings are modelled as Lean `String` (lists of characters); machine-level
concerns do not arise.  Filesystem and subprocess effects are modelled by
explicit oracle parameters: the outcome of creating the destination root,
the outcome of `shutil.copy2` for a given source/destination pair, and the
exit code / stderr text of a spawned `ffmpeg` process for a given argument
vector.  The thread pool executes each submitted job exactly once and the
aggregation loop drains every future; since every claim under study is
order-insensitive (counts, per-result facts, membership of output lines),
the model processes results in submission order.
-/

set_option maxHeartbeats 1000000

/-- Characters matched by the regex class `[a-zA-Z0-9]` in `_PATT`
(`copy_tree_map.py` line 99). -/
def alnumChar (c : Char) : Bool :=
  ('a' ≤ c && c ≤ 'z') || ('A' ≤ c && c ≤ 'Z') || ('0' ≤ c && c ≤ '9')

/-- Characters matched by the regex token `\d` of `_PATT`, restricted to
ASCII input (on non-ASCII input Python `\d` also accepts other Unicode
decimal digits; theorems that depend on `\d` rejecting a character carry an
ASCII-input hypothesis). -/
def digitChar (c : Char) : Bool := '0' ≤ c && c ≤ '9'

/-- One regex group `(C)+` for a character class `C`: the greedy match of a
nonempty run.  Because `:` is outside both character classes of `_PATT` and
the character following `\d+` must be the literal `k` (not a digit),
backtracking a greedy run can never help, so the maximal-run match is
equivalent to Python regex semantics for `_PATT`. -/
def matchGroup (p : Char → Bool) (cs : List Char) : Option (List Char × List Char) :=
  if cs.takeWhile p = [] then none else some (cs.takeWhile p, cs.dropWhile p)

/-- Consume one expected literal character. -/
def expectChar (c : Char) : List Char → Option (List Char)
  | x :: rest => if x = c then some rest else none
  | [] => none

/-- Attempt to match `_PATT` = `([a-zA-Z0-9]+):([a-zA-Z0-9]+):([a-zA-Z0-9]+):(\d+k)`
at the start of `cs`, returning the four groups (the fourth group includes
the trailing `k`, as in the Python pattern). -/
def matchAt (cs : List Char) : Option (List Char × List Char × List Char × List Char) := do
  let (g1, r1) ← matchGroup alnumChar cs
  let r2 ← expectChar ':' r1
  let (g2, r3) ← matchGroup alnumChar r2
  let r4 ← expectChar ':' r3
  let (g3, r5) ← matchGroup alnumChar r4
  let r6 ← expectChar ':' r5
  let (g4, r7) ← matchGroup digitChar r6
  match r7 with
  | 'k' :: _ => some (g1, g2, g3, g4 ++ [ 'k' ])
  | _ => none

/-- Leftmost match of `_PATT` anywhere in the string, i.e. the first element
of `_PATT.findall(rule)` (`re.findall` scans candidate start positions left
to right). -/
def findFirstMatch : List Char → Option (List Char × List Char × List Char × List Char)
  | [] => none
  | c :: cs =>
    match matchAt (c :: cs) with
    | some g => some g
    | none => findFirstMatch cs

/-- The per-extension transform value dictionary
`{"codec": ..., "ext": ..., "bitrate": ...}` built by `parse_ffmpeg_rule`. -/
structure FFRule where
  codec : String
  ext : String
  bitrate : String
deriving DecidableEq, Repr

/-- Model of `parse_ffmpeg_rule` (`copy_tree_map.py` lines 102-107):
`_PATT.findall(rule)`; `None` when there is no match, otherwise the first
match packaged as `(input-extension, value-dict)`. -/
def parse_ffmpeg_rule (rule : String) : Option (String × FFRule) :=
  match findFirstMatch rule.data with
  | none => none
  | some (g1, g2, g3, g4) => some (⟨g1⟩, ⟨⟨g2⟩, ⟨g3⟩, ⟨g4⟩⟩)

/-- The rule table: a Python `dict` keyed by input extension, modelled as an
insertion-ordered association list with unique keys. -/
abbrev RuleMap := List (String × FFRule)

/-- Python `d[k] = v` semantics: overwrite in place if the key exists
(keeping its position), otherwise append. -/
def dictInsert : RuleMap → String → FFRule → RuleMap
  | [], k, v => [(k, v)]
  | (k0, v0) :: rest, k, v =>
    if k0 = k then (k0, v) :: rest else (k0, v0) :: dictInsert rest k v

/-- Python `d.get(k, None)` semantics. -/
def dictGet : RuleMap → String → Option FFRule
  | [], _ => none
  | (k0, v0) :: rest, k => if k0 = k then some v0 else dictGet rest k

/-- Python `dict(pairs)`: insert the pairs left to right, so a later
duplicate key overwrites an earlier one. -/
def pyDict (pairs : List (String × FFRule)) : RuleMap :=
  pairs.foldl (fun d p => dictInsert d p.1 p.2) []

/-- Python `{**a, **b}`: start from the items of `a`, then insert the items
of `b`, which therefore override `a` on duplicate keys. -/
def dictMerge (a b : RuleMap) : RuleMap :=
  b.foldl (fun d p => dictInsert d p.1 p.2) a

/-- The `argparse.ArgumentError` message raised by `FFMPEGRuleAction.__call__`
for a malformed rule string (`copy_tree_map.py` lines 120-121). -/
def ruleErrMsg (val : String) : String :=
  "Invalid FFMPEG_RULE rule: \u0027" ++ val ++ "\u0027 (See --help for details.)"

/-- The generator `_gen()` inside `FFMPEGRuleAction.__call__`, as consumed by
`dict(...)`: parse each value in order; the first malformed value raises. -/
def parseRuleValues : List String → Except String (List (String × FFRule))
  | [] => .ok []
  | v :: rest =>
    match parse_ffmpeg_rule v with
    | none => .error (ruleErrMsg v)
    | some r =>
      match parseRuleValues rest with
      | .error e => .error e
      | .ok rs => .ok (r :: rs)

/-- Model of `FFMPEGRuleAction.__call__` (`copy_tree_map.py` lines 115-128)
for one occurrence of `--ffmpeg` with value list `values`; `existing` is the
namespace attribute before the call (`None` on the first occurrence).  On
error nothing is stored. -/
def ffmpegRuleAction (values : List String) (existing : Option RuleMap) :
    Except String RuleMap :=
  match parseRuleValues values with
  | .error e => .error e
  | .ok pairs =>
    let addendum := pyDict pairs
    let old := existing.getD []
    .ok (dictMerge addendum old)

/-- Repeated `--ffmpeg` occurrences, applied left to right as argparse does,
threading the namespace attribute. -/
def applyFFmpegOptions (occurrences : List (List String)) : Except String RuleMap :=
  occurrences.foldlM (fun acc vs => ffmpegRuleAction vs (some acc)) []

example : parse_ffmpeg_rule "flac:libopus:ogg:128k" =
    some ("flac", ⟨"libopus", "ogg", "128k"⟩) := by decide

example : parse_ffmpeg_rule "flac:libopus:ogg:128" = none := by decide

example : parse_ffmpeg_rule "flac:libopus:128k" = none := by decide

example : parse_ffmpeg_rule "flac:libopus:ogg:abck" = none := by decide

example : parse_ffmpeg_rule "flac:libopus:ogg:128k:x" =
    some ("flac", ⟨"libopus", "ogg", "128k"⟩) := by decide

example : ffmpegRuleAction ["flac:c1:e1:128k", "flac:c2:e2:192k"] none =
    .ok [("flac", ⟨"c2", "e2", "192k"⟩)] := by rfl

example : applyFFmpegOptions [["flac:c1:e1:128k"], ["flac:c2:e2:192k"]] =
    .ok [("flac", ⟨"c1", "e1", "128k"⟩)] := by rfl

/-- Final path component, as `pathlib.PurePosixPath(...).name` for paths
without a trailing separator: the characters after the last `/`. -/
def nameOfPath (cs : List Char) : List Char :=
  (cs.reverse.takeWhile (fun c => c ≠ '/')).reverse

/-- Everything up to and including the last `/` (empty when the path has no
separator); concatenating with `nameOfPath` gives back the path. -/
def parentOfPath (cs : List Char) : List Char :=
  (cs.reverse.dropWhile (fun c => c ≠ '/')).reverse

/-- Model of `pathlib.PurePath.suffix` applied to a final component `name`:
with `i` the index of the last dot, the suffix `name[i:]` when
`0 < i < len(name) - 1`, and empty otherwise. -/
def pySuffix (name : List Char) : List Char :=
  let post := name.reverse.takeWhile (fun c => c ≠ '.')
  if post.length = name.length then []
  else if post.length = 0 then []
  else if post.length + 1 = name.length then []
  else '.' :: post.reverse

/-- Python `str.lstrip(".")`: drop every leading dot. -/
def lstripDots (cs : List Char) : List Char := cs.dropWhile (fun c => c = '.')

/-- The key `dst.suffix.lstrip(".")` used by `_mycopy` to consult the rule
table (`copy_tree_map.py` line 74). -/
def suffixKey (path : List Char) : List Char := lstripDots (pySuffix (nameOfPath path))

/-- Model of `pathlib.PurePath.with_suffix(suf)` (as a string): replace the
suffix of the final component, or append `suf` when there is none. -/
def pyWithSuffix (path : List Char) (suf : List Char) : List Char :=
  let name := nameOfPath path
  let old := pySuffix name
  parentOfPath path ++
    (if old = [] then name ++ suf else name.take (name.length - old.length) ++ suf)

/-- A job submitted to the thread pool by `_mycopy`: either
`pool.submit(ffmpeg_conv, src, newdest, codec, bitrate)` or
`pool.submit(copyjob, src, dst)`. -/
inductive Job where
  | transcodeJob (src dst codec bitrate : String)
  | copyJob (src dst : String)
deriving DecidableEq, Repr

/-- Model of `_mycopy` (`copy_tree_map.py` lines 70-95), restricted to its
dispatch decision: consult the rule table with the destination suffix key;
on a hit submit a transcode job to the rewritten destination
`dst.with_suffix("." + ext)`, otherwise submit a direct copy job with the
unmodified destination. -/
def _mycopy (mapfuncs : RuleMap) (src _dst : String) : Job :=
  match dictGet mapfuncs ⟨suffixKey _dst.data⟩ with
  | some out_params =>
    Job.transcodeJob src ⟨pyWithSuffix _dst.data ('.' :: out_params.ext.data)⟩
      out_params.codec out_params.bitrate
  | none => Job.copyJob src _dst

/-- The result dictionary produced by both job functions:
`{"success": ..., "src": ..., "dst": ..., "cmd": ..., "msg": ...}`. -/
structure JobResult where
  success : Bool
  src : String
  dst : String
  cmd : List String
  msg : Option String
deriving DecidableEq, Repr

/-- Outcome of one `subprocess.run` invocation: exit code and the contents
of the process error stream. -/
structure ProcOutcome where
  returncode : Int
  stderrText : String
deriving DecidableEq, Repr

/-- Model of Python `str.strip()` with no argument: drop leading and
trailing whitespace (Lean `Char.isWhitespace` covers the ASCII whitespace
relevant to `ffmpeg` diagnostics). -/
def pyStrip (s : String) : String :=
  ⟨((s.data.dropWhile Char.isWhitespace).reverse.dropWhile Char.isWhitespace).reverse⟩

/-- The exact argument vector built by `ffmpeg_conv`
(`copy_tree_map.py` line 42). -/
def ffmpegCmd (src dst codec bitrate : String) : List String :=
  ["ffmpeg", "-loglevel", "warning", "-i", src, "-c:a", codec, "-b:a", bitrate, "-vn", dst]

/-- Model of `ffmpeg_conv` (`copy_tree_map.py` lines 40-54).  The behaviour
of the external process is supplied by the oracle `runProc`.  A non-zero
exit status is recovered into `success := false` with the trimmed error
stream as message; the function never throws. -/
def ffmpeg_conv (runProc : List String → ProcOutcome) (src dst codec bitrate : String) :
    JobResult :=
  let cmd := ffmpegCmd src dst codec bitrate
  let out := runProc cmd
  if out.returncode = 0 then
    { success := true, src := src, dst := dst, cmd := cmd, msg := some "" }
  else
    { success := false, src := src, dst := dst, cmd := cmd,
      msg := some (pyStrip out.stderrText) }

/-- Model of `copyjob` (`copy_tree_map.py` lines 57-65).  The outcome of
`shutil.copy2` is supplied as an `Except` value: `error e` models an
exception with `str(e) = e`, which the function catches and records; the
function never throws. -/
def copyjob (copyOutcome : Except String Unit) (src dst : String) : JobResult :=
  match copyOutcome with
  | .ok _ => { success := true, src := src, dst := dst, cmd := ["shutil.copy2"], msg := none }
  | .error e => { success := false, src := src, dst := dst, cmd := ["shutil.copy2"], msg := some e }

/-- A directory entry of the abstract source tree handed to
`shutil.copytree`: a regular file or a subdirectory. -/
inductive Entry where
  | fileEntry (n : String)
  | dirEntry (n : String) (entries : List Entry)
deriving Repr

/-- Basename of an entry. -/
def Entry.name : Entry → String
  | .fileEntry n => n
  | .dirEntry n _ => n

/-- Model of `os.path.join` for one component. -/
def pjoin (a b : String) : String :=
  if b.startsWith "/" then b
  else if a = "" then b
  else if a.endsWith "/" then a ++ b
  else a ++ "/" ++ b

mutual
/-- Process the listed entries of one source directory the way
`shutil._copytree` does: ignored names are skipped, subdirectories recurse,
regular files go through the copy function `_mycopy`.  Returns the submitted
jobs and every name reported to the `ignore` callback, in order. -/
def walkEntries (m : RuleMap) (ign : String → Bool) (src dst : String) :
    List Entry → List Job × List String
  | [] => ([], [])
  | e :: rest =>
    let a := walkEntry m ign src dst e
    let b := walkEntries m ign src dst rest
    (a.1 ++ b.1, a.2 ++ b.2)

/-- One entry of `shutil._copytree`'s loop.  The membership test
`srcentry.name in ignored_names` is expressed directly as `ign e.name`,
which agrees with membership in the set returned by
`shutil.ignore_patterns` for a name listed in this directory.  Destination
subdirectory creation always succeeds below a freshly created root and is
therefore not an oracle. -/
def walkEntry (m : RuleMap) (ign : String → Bool) (src dst : String) :
    Entry → List Job × List String
  | .fileEntry n =>
    if ign n then ([], [])
    else ([_mycopy m (pjoin src n) (pjoin dst n)], [])
  | .dirEntry n sub =>
    if ign n then ([], [])
    else
      let here := (sub.map Entry.name).filter ign
      let deeper := walkEntries m ign (pjoin src n) (pjoin dst n) sub
      (deeper.1, here ++ deeper.2)
end

/-- Outcome of `os.makedirs` on the destination root: created, refused with
`FileExistsError` (destination already present), or failed with some other
`OSError` such as `PermissionError` (carrying `str(e)`). -/
inductive MkdirOutcome where
  | created
  | alreadyExists
  | failed (msg : String)
deriving Repr

/-- The external world of one `_main` invocation: root-creation outcome plus
the per-job oracles. -/
structure World where
  rootMkdir : MkdirOutcome
  copyOracle : String → String → Except String Unit
  procOracle : List String → ProcOutcome

/-- Execute one submitted job, resolving its future. -/
def runJob (w : World) : Job → JobResult
  | .copyJob s d => copyjob (w.copyOracle s d) s d
  | .transcodeJob s d c b => ffmpeg_conv w.procOracle s d c b

/-- The summary printed by `_main` (`copy_tree_map.py` lines 283-284). -/
def summaryLine (nOk nIgn nFail nTot : Int) : String :=
  "Finished. Success: " ++ toString nOk ++ ", Ignored: " ++ toString nIgn ++
    ", Failed: " ++ toString nFail ++ " (Total: " ++ toString nTot ++ ")"

/-- The per-failure warning printed to stderr (`copy_tree_map.py` lines
267-268); `res["cmd"][0]` is total because both job functions produce a
non-empty `cmd`. -/
def warnLine (r : JobResult) : String :=
  "WARNING: the operation \u0027" ++ r.cmd.headD "" ++ "\u0027 from \u0027" ++ r.src ++
    "\u0027 to \u0027" ++ r.dst ++ "\u0027 failed: " ++
    (match r.msg with | none => "None" | some s => s)

/-- The aggregate warning printed to stderr when at least one job failed
(`copy_tree_map.py` lines 280-281). -/
def errorsWarningLine : String :=
  "WARNING: there were errors. One or more files were not copied/converted."

/-- The fatal message printed when `shutil.copytree` raises
`FileExistsError` (`copy_tree_map.py` line 253); note the source prints it
to stdout, not stderr. -/
def fileExistsLine (path : String) : String :=
  "ERROR - File or directory already exists: \u0027" ++ path ++ "\u0027"

/-- Observable outcome of one `_main` invocation.  `retcode` is `.error e`
when an exception `e` escapes `_main` (the source catches only
`FileExistsError`). -/
structure MainResult where
  retcode : Except String Int
  jobs : List Job
  results : List JobResult
  ignored : List String
  stdout : List String
  stderr : List String

/-- Model of `_main` (`copy_tree_map.py` lines 194-285) with `verbose`
fixed to `False` (verbose mode only adds extra progress lines).
`shutil.copytree` lists the root, reports the ignored root names, then
calls `os.makedirs(outdir)`: on `FileExistsError` `_main` prints the error
line and returns `-2`; any other `OSError` propagates uncaught.  Otherwise
the walk submits the jobs, the aggregation loop drains every future,
prints one warning per failure, computes the tallies and prints the
summary, returning `-1` when at least one job failed and `0` otherwise. -/
def _main (w : World) (indir outdir : String) (ffmpeg_map : RuleMap)
    (ign : String → Bool) (tree : List Entry) : MainResult :=
  let ignRoot := (tree.map Entry.name).filter ign
  match w.rootMkdir with
  | .alreadyExists =>
    { retcode := .ok (-2), jobs := [], results := [], ignored := ignRoot,
      stdout := [fileExistsLine outdir], stderr := [] }
  | .failed e =>
    { retcode := .error e, jobs := [], results := [], ignored := ignRoot,
      stdout := [], stderr := [] }
  | .created =>
    let walked := walkEntries ffmpeg_map ign indir outdir tree
    let jobs := walked.1
    let ignored := ignRoot ++ walked.2
    let results := jobs.map (runJob w)
    let failed := results.filter (fun r => ! r.success)
    let nFuts : Int := jobs.length
    let nIgn : Int := ignored.length
    let nFail : Int := failed.length
    let nTot : Int := nFuts + nIgn
    let nOk : Int := nTot - nFail - nIgn
    { retcode := .ok (if 0 < nFail then -1 else 0),
      jobs := jobs, results := results, ignored := ignored,
      stdout := [summaryLine nOk nIgn nFail nTot],
      stderr := failed.map warnLine ++ (if 0 < nFail then [errorsWarningLine] else []) }

example : suffixKey "a/b/song.FLAC".data = "FLAC".data := by decide

example : _mycopy [("flac", ⟨"libopus", "ogg", "128k"⟩)] "in/song.FLAC" "out/song.FLAC" =
    Job.copyJob "in/song.FLAC" "out/song.FLAC" := by decide

example : _mycopy [("flac", ⟨"libopus", "ogg", "128k"⟩)] "in/a.flac" "out/a.flac" =
    Job.transcodeJob "in/a.flac" "out/a.ogg" "libopus" "128k" := by decide

/-- String concatenation acts on the underlying character lists. -/
theorem stringDataAppend (s t : String) : (s ++ t).data = s.data ++ t.data := rfl

/-- Two strings whose character lists start with different characters are
different strings. -/
theorem string_ne_of_head {a b : String} {x y : Char} {xs ys : List Char}
    (ha : a.data = x :: xs) (hb : b.data = y :: ys) (hxy : x ≠ y) : a ≠ b := by
  intro h
  subst h
  rw [ha] at hb
  exact hxy (List.cons.injEq .. ▸ hb).1

/-- Every summary line starts with the letter F. -/
theorem summaryLine_head (a b c d : Int) :
    ∃ xs, (summaryLine a b c d).data = 'F' :: xs := by
  have h1 : ("Finished. Success: ").data = 'F' :: ("inished. Success: ").data := rfl
  simp only [summaryLine, stringDataAppend, h1, List.cons_append, List.append_assoc]
  exact ⟨_, rfl⟩

/-- Every already-exists error line starts with the letter E. -/
theorem fileExistsLine_head (p : String) :
    ∃ xs, (fileExistsLine p).data = 'E' :: xs := by
  have h1 : ("ERROR - File or directory already exists: '").data =
      'E' :: ("RROR - File or directory already exists: '").data := rfl
  simp only [fileExistsLine, stringDataAppend, h1, List.cons_append, List.append_assoc]
  exact ⟨_, rfl⟩

/-- A list of job results has an empty failure filter exactly when every
result succeeded. -/
theorem filter_fail_eq_nil_iff (rs : List JobResult) :
    rs.filter (fun r => ! r.success) = [] ↔ ∀ r ∈ rs, r.success = true := by
  rw [List.filter_eq_nil_iff]
  constructor
  · intro h r hr
    have := h r hr
    simpa using this
  · intro h r hr
    simp [h r hr]

/-- A list of job results has a nonempty failure filter exactly when some
result failed. -/
theorem filter_fail_ne_nil_iff (rs : List JobResult) :
    rs.filter (fun r => ! r.success) ≠ [] ↔ ∃ r ∈ rs, r.success = false := by
  constructor
  · intro h
    rcases List.exists_mem_of_ne_nil _ h with ⟨r, hr⟩
    rcases List.mem_filter.mp hr with ⟨hmem, hfail⟩
    exact ⟨r, hmem, by simpa using hfail⟩
  · rintro ⟨r, hmem, hfail⟩ hnil
    have := (filter_fail_eq_nil_iff rs).mp hnil r hmem
    rw [this] at hfail
    cases hfail

/-- Oracle in which every spawned process succeeds. -/
def procAllOk : List String → ProcOutcome := fun _ => { returncode := 0, stderrText := "" }

/-- World in which the root is created and every job succeeds. -/
def worldAllOk : World :=
  { rootMkdir := .created, copyOracle := fun _ _ => .ok (), procOracle := procAllOk }

/-- World in which the root is created but every direct copy raises. -/
def worldCopyFails : World :=
  { rootMkdir := .created, copyOracle := fun _ _ => .error "disk full",
    procOracle := procAllOk }

/-- World in which the destination root already exists. -/
def worldRootExists : World :=
  { rootMkdir := .alreadyExists, copyOracle := fun _ _ => .ok (), procOracle := procAllOk }

/-- World in which creating the destination root raises PermissionError. -/
def worldRootDenied : World :=
  { rootMkdir := .failed "Permission denied", copyOracle := fun _ _ => .ok (),
    procOracle := procAllOk }

/-- C1: when the destination root already exists, or cannot be created
(e.g. permission denied), `_main` aborts before any job is submitted: no
job is observed, no `JobResult` is produced, no summary line is printed,
and the outcome is fatal — either the distinct return code `-2`
(`FileExistsError`) or a propagating exception (any other creation error),
in both cases distinct from the all-success outcome `0` and the
partial-failure outcome `-1`. -/
theorem c1_fatal_root_aborts_before_jobs (w : World) (indir outdir : String)
    (m : RuleMap) (ign : String → Bool) (tree : List Entry)
    (h : w.rootMkdir = MkdirOutcome.alreadyExists ∨
         ∃ e, w.rootMkdir = MkdirOutcome.failed e) :
    ( _main w indir outdir m ign tree).jobs = [] ∧
    ( _main w indir outdir m ign tree).results = [] ∧
    (∀ a b c d, summaryLine a b c d ∉ ( _main w indir outdir m ign tree).stdout) ∧
    (( _main w indir outdir m ign tree).retcode = Except.ok (-2) ∨
      ∃ e, ( _main w indir outdir m ign tree).retcode = Except.error e) ∧
    ( _main w indir outdir m ign tree).retcode ≠ Except.ok 0 ∧
    ( _main w indir outdir m ign tree).retcode ≠ Except.ok (-1) := by
  rcases h with h | ⟨e, h⟩
  · refine ⟨by simp [_main, h], by simp [_main, h], ?_, Or.inl (by simp [_main, h]),
      by simp [_main, h], by simp [_main, h]⟩
    intro a b c d
    simp only [_main, h, List.mem_singleton]
    rcases summaryLine_head a b c d with ⟨xs, hs⟩
    rcases fileExistsLine_head outdir with ⟨ys, hf⟩
    exact string_ne_of_head hs hf (by decide)
  · exact ⟨by simp [_main, h], by simp [_main, h], by simp [_main, h],
      Or.inr ⟨e, by simp [_main, h]⟩, by simp [_main, h], by simp [_main, h]⟩

/-- C1 witness: with the destination root already present, the concrete run
observes zero jobs, zero results, no summary, and the fatal outcome. -/
theorem c1_witness :
    ( _main worldRootExists "in" "out" [] (fun _ => false) [Entry.fileEntry "a.txt"]).jobs
        = [] ∧
    ( _main worldRootExists "in" "out" [] (fun _ => false) [Entry.fileEntry "a.txt"]).results
        = [] ∧
    (∀ a b c d, summaryLine a b c d ∉
      ( _main worldRootExists "in" "out" [] (fun _ => false)
        [Entry.fileEntry "a.txt"]).stdout) ∧
    (( _main worldRootExists "in" "out" [] (fun _ => false)
        [Entry.fileEntry "a.txt"]).retcode = Except.ok (-2) ∨
      ∃ e, ( _main worldRootExists "in" "out" [] (fun _ => false)
        [Entry.fileEntry "a.txt"]).retcode = Except.error e) ∧
    ( _main worldRootExists "in" "out" [] (fun _ => false)
        [Entry.fileEntry "a.txt"]).retcode ≠ Except.ok 0 ∧
    ( _main worldRootExists "in" "out" [] (fun _ => false)
        [Entry.fileEntry "a.txt"]).retcode ≠ Except.ok (-1) :=
  c1_fatal_root_aborts_before_jobs worldRootExists "in" "out" [] (fun _ => false)
    [Entry.fileEntry "a.txt"] (Or.inl rfl)

/-- C2 counterexample: with a destination root that cannot be created
(permission denied), the precondition is violated, yet `_main` does not
return the distinct fatal code (or any code): the error propagates as an
uncaught exception, refuting the claimed "returns another distinct nonzero
code if and only if the destination-root precondition was violated". -/
theorem c2_counterexample :
    ( _main worldRootDenied "in" "out" [] (fun _ => false)
        [Entry.fileEntry "a.txt"]).retcode = Except.error "Permission denied" ∧
    (∀ z : Int, ( _main worldRootDenied "in" "out" [] (fun _ => false)
        [Entry.fileEntry "a.txt"]).retcode ≠ Except.ok z) := by
  constructor
  · rfl
  · intro z h
    cases h

/-- Helper for the created-root case: the return code is `0` exactly when
every result succeeded and `-1` exactly when some result failed. -/
theorem main_created_code (w : World) (indir outdir : String) (m : RuleMap)
    (ign : String → Bool) (tree : List Entry)
    (hw : w.rootMkdir = MkdirOutcome.created) :
    (( _main w indir outdir m ign tree).retcode = Except.ok 0 ↔
      ∀ r ∈ ( _main w indir outdir m ign tree).results, r.success = true) ∧
    (( _main w indir outdir m ign tree).retcode = Except.ok (-1) ↔
      ∃ r ∈ ( _main w indir outdir m ign tree).results, r.success = false) := by
  have hret : ( _main w indir outdir m ign tree).retcode =
      Except.ok (if 0 < (((( _main w indir outdir m ign tree).results.filter
        (fun r => ! r.success)).length : Nat) : Int) then -1 else 0) := by
    simp [_main, hw]
  by_cases hnil : (( _main w indir outdir m ign tree).results.filter
      (fun r => ! r.success)) = []
  · have hall := (filter_fail_eq_nil_iff _).mp hnil
    have hcond : ¬ (0 : Int) < (((( _main w indir outdir m ign tree).results.filter
        (fun r => ! r.success)).length : Nat) : Int) := by
      rw [hnil]
      simp
    rw [hret, if_neg hcond]
    constructor
    · simp only [Except.ok.injEq]
      constructor
      · intro _
        exact hall
      · intro _
        trivial
    · simp only [Except.ok.injEq]
      constructor
      · intro h
        exact absurd h (by norm_num)
      · rintro ⟨r, hr, hf⟩
        have := hall r hr
        rw [this] at hf
        cases hf
  · have hex := (filter_fail_ne_nil_iff _).mp hnil
    have hcond : (0 : Int) < (((( _main w indir outdir m ign tree).results.filter
        (fun r => ! r.success)).length : Nat) : Int) := by
      exact_mod_cast List.length_pos.mpr hnil
    rw [hret, if_pos hcond]
    constructor
    · simp only [Except.ok.injEq]
      constructor
      · intro h
        exact absurd h (by norm_num)
      · intro hall
        rcases hex with ⟨r, hr, hf⟩
        have := hall r hr
        rw [this] at hf
        cases hf
    · simp only [Except.ok.injEq]
      constructor
      · intro _
        exact hex
      · intro _
        trivial

/-- C2 (amended): `_main` returns `0` iff the root was created and every
job succeeded; it returns the distinct code `-1` iff the root was created
and at least one job failed; it returns the distinct code `-2` iff the
destination root already existed (in which case no job ran); when the root
cannot be created for any other reason the error instead propagates as an
uncaught exception (again with no job run); and the three codes are
pairwise distinct. -/
theorem c2_tristate_amended (w : World) (indir outdir : String) (m : RuleMap)
    (ign : String → Bool) (tree : List Entry) :
    (( _main w indir outdir m ign tree).retcode = Except.ok 0 ↔
      w.rootMkdir = MkdirOutcome.created ∧
      ∀ r ∈ ( _main w indir outdir m ign tree).results, r.success = true) ∧
    (( _main w indir outdir m ign tree).retcode = Except.ok (-1) ↔
      w.rootMkdir = MkdirOutcome.created ∧
      ∃ r ∈ ( _main w indir outdir m ign tree).results, r.success = false) ∧
    (( _main w indir outdir m ign tree).retcode = Except.ok (-2) ↔
      w.rootMkdir = MkdirOutcome.alreadyExists) ∧
    (w.rootMkdir = MkdirOutcome.alreadyExists →
      ( _main w indir outdir m ign tree).jobs = []) ∧
    (∀ e, w.rootMkdir = MkdirOutcome.failed e →
      ( _main w indir outdir m ign tree).retcode = Except.error e ∧
      ( _main w indir outdir m ign tree).jobs = []) ∧
    ((0 : Int) ≠ -1 ∧ (0 : Int) ≠ -2 ∧ (-1 : Int) ≠ -2) := by
  cases hw : w.rootMkdir with
  | alreadyExists =>
    refine ⟨by simp [_main, hw], by simp [_main, hw], by simp [_main, hw],
      fun _ => by simp [_main, hw], ?_, by norm_num⟩
    intro e he
    simp at he
  | failed e0 =>
    refine ⟨by simp [_main, hw], by simp [_main, hw], by simp [_main, hw], ?_, ?_, by norm_num⟩
    · intro he
      simp at he
    · intro e he
      have h2 : e0 = e := by
        injection he
      subst h2
      exact ⟨by simp [_main, hw], by simp [_main, hw]⟩
  | created =>
    have hc := main_created_code w indir outdir m ign tree hw
    refine ⟨?_, ?_, by simp [_main, hw]; split <;> norm_num, ?_, ?_, by norm_num⟩
    · rw [hc.1]
      simp
    · rw [hc.2]
      simp
    · intro he
      simp at he
    · intro e he
      simp at he

/-- C2 witness: a concrete run whose destination root already exists
returns the distinct fatal code `-2`. -/
theorem c2_witness :
    ( _main worldRootExists "in" "out" [] (fun _ => false) []).retcode =
      Except.ok (-2) :=
  ((c2_tristate_amended worldRootExists "in" "out" [] (fun _ => false) []).2.2.1).mpr rfl

/-- C6: every single-file job failure is recovered locally into a
`JobResult` with `success = false` and a descriptive message, and never
propagates: a failing `shutil.copy2` yields a copy result carrying the
exception text; a non-zero `ffmpeg` exit yields a transcode result
carrying the trimmed error-stream contents and the exact argument vector;
and (both job functions being total) a run with a created root always
completes normally — code `0` or `-1`, never an exception — with exactly
one result per submitted job. -/
theorem c6_failures_recovered_locally :
    (∀ (e src dst : String), copyjob (Except.error e) src dst =
      { success := false, src := src, dst := dst, cmd := ["shutil.copy2"],
        msg := some e }) ∧
    (∀ (runProc : List String → ProcOutcome) (src dst codec bitrate : String),
      (runProc (ffmpegCmd src dst codec bitrate)).returncode ≠ 0 →
      ffmpeg_conv runProc src dst codec bitrate =
        { success := false, src := src, dst := dst,
          cmd := ffmpegCmd src dst codec bitrate,
          msg := some (pyStrip (runProc (ffmpegCmd src dst codec bitrate)).stderrText) }) ∧
    (∀ (w : World) (indir outdir : String) (m : RuleMap) (ign : String → Bool)
        (tree : List Entry), w.rootMkdir = MkdirOutcome.created →
      (( _main w indir outdir m ign tree).retcode = Except.ok 0 ∨
        ( _main w indir outdir m ign tree).retcode = Except.ok (-1)) ∧
      ( _main w indir outdir m ign tree).results.length =
        ( _main w indir outdir m ign tree).jobs.length) := by
  refine ⟨fun e src dst => rfl, ?_, ?_⟩
  · intro runProc src dst codec bitrate h
    simp [ffmpeg_conv, h]
  · intro w indir outdir m ign tree hw
    constructor
    · simp only [_main, hw]
      split_ifs <;> simp
    · simp [_main, hw]

/-- C6 witness: a concrete failing transcode is recovered into a failure
result with the trimmed stderr text and the exact command vector. -/
theorem c6_witness :
    ffmpeg_conv (fun _ => { returncode := 1, stderrText := " bad " }) "a.flac" "b.ogg"
        "libopus" "128k" =
      { success := false, src := "a.flac", dst := "b.ogg",
        cmd := ffmpegCmd "a.flac" "b.ogg" "libopus" "128k", msg := some "bad" } := by
  have h := c6_failures_recovered_locally.2.1
    (fun _ => { returncode := 1, stderrText := " bad " }) "a.flac" "b.ogg" "libopus" "128k"
    (by decide)
  have ht : pyStrip " bad " = "bad" := by decide
  rw [← ht]
  exact h

/-- C7: on every non-fatal completion (root created), the printed summary
is exactly one line whose fields satisfy `total = submitted + ignored` and
`ok = total - failed - ignored`; the error stream carries one warning line
per failed job (formatted from the failed result's operation name
`cmd[0]`, source, destination and message) followed by the aggregate
warning exactly when there was a failure; and there is one result per
submitted job. -/
theorem c7_nonfatal_summary (w : World) (indir outdir : String) (m : RuleMap)
    (ign : String → Bool) (tree : List Entry)
    (hw : w.rootMkdir = MkdirOutcome.created) :
    ( _main w indir outdir m ign tree).stdout =
      [summaryLine
        (((( _main w indir outdir m ign tree).jobs.length : Int) +
          (( _main w indir outdir m ign tree).ignored.length : Int)) -
          ((( _main w indir outdir m ign tree).results.filter
              (fun r => ! r.success)).length : Int) -
          (( _main w indir outdir m ign tree).ignored.length : Int))
        (( _main w indir outdir m ign tree).ignored.length : Int)
        ((( _main w indir outdir m ign tree).results.filter
            (fun r => ! r.success)).length : Int)
        ((( _main w indir outdir m ign tree).jobs.length : Int) +
          (( _main w indir outdir m ign tree).ignored.length : Int))] ∧
    ( _main w indir outdir m ign tree).stderr =
      (( _main w indir outdir m ign tree).results.filter
          (fun r => ! r.success)).map warnLine ++
        (if 0 < ((( _main w indir outdir m ign tree).results.filter
            (fun r => ! r.success)).length : Int) then [errorsWarningLine] else []) ∧
    ( _main w indir outdir m ign tree).results =
      ( _main w indir outdir m ign tree).jobs.map (runJob w) := by
  refine ⟨?_, ?_, by simp [_main, hw]⟩ <;> simp [_main, hw]

/-- C7 witness: in a concrete run with one failing copy and one ignored
name, the summary is printed with `ok = 0`, `ignored = 1`, `failed = 1`,
`total = 2`. -/
theorem c7_witness :
    ( _main worldCopyFails "in" "out" []
        (fun n => n = "skip.md") [Entry.fileEntry "a.txt", Entry.fileEntry "skip.md"]).stdout
      = [summaryLine 0 1 1 2] := by
  have h := c7_nonfatal_summary worldCopyFails "in" "out" []
    (fun n => n = "skip.md") [Entry.fileEntry "a.txt", Entry.fileEntry "skip.md"] rfl
  rw [h.1]
  rfl

/-- C9 counterexample: the command field of a Direct Copy Job result is
`["shutil.copy2"]`, which is not the empty sequence the claim asserts. -/
theorem c9_counterexample :
    (copyjob (Except.ok ()) "in/a.txt" "out/a.txt").cmd = ["shutil.copy2"] ∧
    ("shutil.copy2" :: ([] : List String)) ≠ [] := by
  exact ⟨rfl, by decide⟩

/-- C9 (amended): the command field of every Direct Copy Job result is the
fixed one-element vector `["shutil.copy2"]` — a sentinel naming the
operation (used by the failure warning as `cmd[0]`), not the empty
sequence. -/
theorem c9_copy_cmd_singleton (outcome : Except String Unit) (src dst : String) :
    (copyjob outcome src dst).cmd = ["shutil.copy2"] := by
  cases outcome <;> rfl

/-- When every element of `l` satisfies `p` and `x` does not, `takeWhile`
stops exactly at `x`. -/
theorem takeWhile_append_stop (p : Char → Bool) (l : List Char) (x : Char) (r : List Char)
    (hl : ∀ ch ∈ l, p ch = true) (hx : p x = false) :
    (l ++ x :: r).takeWhile p = l ∧ (l ++ x :: r).dropWhile p = x :: r := by
  induction l with
  | nil => simp [List.takeWhile_cons, List.dropWhile_cons, hx]
  | cons a as ih =>
    have ha : p a = true := hl a (by simp)
    have hrest : ∀ ch ∈ as, p ch = true := fun ch hc => hl ch (by simp [hc])
    rcases ih hrest with ⟨h1, h2⟩
    refine ⟨?_, ?_⟩
    · simp [List.takeWhile_cons, ha, h1]
    · simp [List.dropWhile_cons, ha, h2]

/-- Greedy-group matching of a run followed by a non-matching character. -/
theorem matchGroup_append (p : Char → Bool) (l : List Char) (x : Char) (r : List Char)
    (hne : l ≠ []) (hl : ∀ ch ∈ l, p ch = true) (hx : p x = false) :
    matchGroup p (l ++ x :: r) = some (l, x :: r) := by
  rcases takeWhile_append_stop p l x r hl hx with ⟨ht, hd⟩
  simp [matchGroup, ht, hd, hne]

/-- A successful group match decomposes the input. -/
theorem matchGroup_decomp (p : Char → Bool) (cs g r : List Char)
    (h : matchGroup p cs = some (g, r)) :
    cs = g ++ r ∧ g ≠ [] ∧ ∀ ch ∈ g, p ch = true := by
  unfold matchGroup at h
  split_ifs at h with hnil
  cases h
  refine ⟨by rw [List.takeWhile_append_dropWhile], hnil, ?_⟩
  intro ch hch
  exact List.mem_takeWhile_imp hch

/-- A successful literal-character match decomposes the input. -/
theorem expectChar_decomp (c : Char) (cs r : List Char) (h : expectChar c cs = some r) :
    cs = c :: r := by
  cases cs with
  | nil => cases h
  | cons x xs =>
    simp only [expectChar] at h
    split_ifs at h with hx
    cases h
    rw [hx]

/-- Matching `_PATT` at the start of a well-formed rule succeeds with the
four declared fields. -/
theorem matchAt_mkRule (i c o b : List Char) (tail : List Char)
    (hi : i ≠ []) (hialn : ∀ ch ∈ i, alnumChar ch = true)
    (hc : c ≠ []) (hcaln : ∀ ch ∈ c, alnumChar ch = true)
    (ho : o ≠ []) (hoaln : ∀ ch ∈ o, alnumChar ch = true)
    (hb : b ≠ []) (hbdig : ∀ ch ∈ b, digitChar ch = true) :
    matchAt (i ++ ':' :: (c ++ ':' :: (o ++ ':' :: (b ++ 'k' :: tail)))) =
      some (i, c, o, b ++ [ 'k' ]) := by
  have h1 := matchGroup_append alnumChar i ':' (c ++ ':' :: (o ++ ':' :: (b ++ 'k' :: tail)))
    hi hialn (by decide)
  have h2 := matchGroup_append alnumChar c ':' (o ++ ':' :: (b ++ 'k' :: tail))
    hc hcaln (by decide)
  have h3 := matchGroup_append alnumChar o ':' (b ++ 'k' :: tail)
    ho hoaln (by decide)
  have h4 := matchGroup_append digitChar b 'k' tail hb hbdig (by decide)
  simp [matchAt, h1, h2, h3, h4, expectChar]

/-- A successful `matchAt` decomposes the input into the three alphanumeric
fields, a nonempty digit run, the literal `k`, and an ignored remainder. -/
theorem matchAt_decomp (cs g1 g2 g3 g4 : List Char)
    (h : matchAt cs = some (g1, g2, g3, g4)) :
    ∃ d t, cs = g1 ++ ':' :: (g2 ++ ':' :: (g3 ++ ':' :: (d ++ 'k' :: t))) ∧
      d ≠ [] ∧ (∀ ch ∈ d, digitChar ch = true) ∧ g4 = d ++ [ 'k' ] := by
  unfold matchAt at h
  cases hm1 : matchGroup alnumChar cs with
  | none => rw [hm1] at h; cases h
  | some p1 =>
    rw [hm1] at h
    obtain ⟨a1, r1⟩ := p1
    simp only [Option.bind_eq_bind, Option.some_bind] at h
    cases he1 : expectChar ':' r1 with
    | none => rw [he1] at h; cases h
    | some r2 =>
      rw [he1] at h
      simp only [Option.some_bind] at h
      cases hm2 : matchGroup alnumChar r2 with
      | none => rw [hm2] at h; cases h
      | some p2 =>
        rw [hm2] at h
        obtain ⟨a2, r3⟩ := p2
        simp only [Option.some_bind] at h
        cases he2 : expectChar ':' r3 with
        | none => rw [he2] at h; cases h
        | some r4 =>
          rw [he2] at h
          simp only [Option.some_bind] at h
          cases hm3 : matchGroup alnumChar r4 with
          | none => rw [hm3] at h; cases h
          | some p3 =>
            rw [hm3] at h
            obtain ⟨a3, r5⟩ := p3
            simp only [Option.some_bind] at h
            cases he3 : expectChar ':' r5 with
            | none => rw [he3] at h; cases h
            | some r6 =>
              rw [he3] at h
              simp only [Option.some_bind] at h
              cases hm4 : matchGroup digitChar r6 with
              | none => rw [hm4] at h; cases h
              | some p4 =>
                rw [hm4] at h
                obtain ⟨a4, r7⟩ := p4
                simp only [Option.some_bind] at h
                split at h
                · next xs heq =>
                  simp only [Option.some.injEq, Prod.mk.injEq] at h
                  obtain ⟨hg1, hg2, hg3, hg4⟩ := h
                  subst hg1
                  subst hg2
                  subst hg3
                  subst hg4
                  obtain ⟨hcs, hne1, hall1⟩ := matchGroup_decomp _ _ _ _ hm1
                  have hr1 := expectChar_decomp _ _ _ he1
                  obtain ⟨hcs2, hne2, hall2⟩ := matchGroup_decomp _ _ _ _ hm2
                  have hr3 := expectChar_decomp _ _ _ he2
                  obtain ⟨hcs3, hne3, hall3⟩ := matchGroup_decomp _ _ _ _ hm3
                  have hr5 := expectChar_decomp _ _ _ he3
                  obtain ⟨hcs4, hne4, hall4⟩ := matchGroup_decomp _ _ _ _ hm4
                  refine ⟨a4, heq, ?_, hne4, hall4, rfl⟩
                  rw [hcs, hr1, hcs2, hr3, hcs3, hr5, hcs4]
                · cases h

/-- A match at the start of a nonempty string is the leftmost match. -/
theorem findFirstMatch_of_matchAt (cs : List Char)
    (g : List Char × List Char × List Char × List Char)
    (hne : cs ≠ []) (h : matchAt cs = some g) : findFirstMatch cs = some g := by
  cases cs with
  | nil => exact absurd rfl hne
  | cons a as => simp [findFirstMatch, h]

/-- Any leftmost match is a match of some suffix of the string. -/
theorem findFirstMatch_decomp (cs : List Char)
    (g : List Char × List Char × List Char × List Char)
    (h : findFirstMatch cs = some g) :
    ∃ pre suf, cs = pre ++ suf ∧ matchAt suf = some g := by
  induction cs with
  | nil => cases h
  | cons a as ih =>
    rw [findFirstMatch] at h
    cases hm : matchAt (a :: as) with
    | some g0 =>
      rw [hm] at h
      cases h
      exact ⟨[], a :: as, rfl, hm⟩
    | none =>
      rw [hm] at h
      rcases ih h with ⟨p, s, hps, hmm⟩
      exact ⟨a :: p, s, by rw [hps, List.cons_append], hmm⟩

/-- The well-formed rule string `<i>:<c>:<o>:<b>k` of section 4.1 of the
specification. -/
def mkRuleStr (i c o b : String) : String :=
  i ++ ":" ++ c ++ ":" ++ o ++ ":" ++ b ++ "k"

/-- Character-list view of a well-formed rule string. -/
theorem mkRuleStr_data (i c o b : String) :
    (mkRuleStr i c o b).data =
      i.data ++ ':' :: (c.data ++ ':' :: (o.data ++ ':' :: (b.data ++ 'k' :: []))) := by
  have hcolon : (":" : String).data = [':'] := rfl
  have hk : ("k" : String).data = [ 'k' ] := rfl
  simp [mkRuleStr, stringDataAppend, hcolon, hk]

/-- Parsing a well-formed rule string yields exactly the declared fields. -/
theorem parse_mkRule (i c o b : String)
    (hi : i.data ≠ []) (hialn : ∀ ch ∈ i.data, alnumChar ch = true)
    (hc : c.data ≠ []) (hcaln : ∀ ch ∈ c.data, alnumChar ch = true)
    (ho : o.data ≠ []) (hoaln : ∀ ch ∈ o.data, alnumChar ch = true)
    (hb : b.data ≠ []) (hbdig : ∀ ch ∈ b.data, digitChar ch = true) :
    parse_ffmpeg_rule (mkRuleStr i c o b) = some (i, ⟨c, o, b ++ "k"⟩) := by
  have hM := matchAt_mkRule i.data c.data o.data b.data [] hi hialn hc hcaln ho hoaln hb hbdig
  have hne : i.data ++ ':' :: (c.data ++ ':' :: (o.data ++ ':' :: (b.data ++ 'k' :: [])))
      ≠ [] := by
    cases hcase : i.data with
    | nil => exact absurd hcase hi
    | cons x xs => simp
  have hF := findFirstMatch_of_matchAt _ _ hne hM
  unfold parse_ffmpeg_rule
  rw [mkRuleStr_data, hF]
  rfl

/-- Bind on a successful `Except` value reduces. -/
theorem exceptBind_ok (x : RuleMap) (f : RuleMap → Except String RuleMap) :
    (Except.ok x >>= f : Except String RuleMap) = f x := rfl

/-- Pure for `Except` is `ok`. -/
theorem exceptPure_eq_ok (x : RuleMap) : (pure x : Except String RuleMap) = Except.ok x := rfl

/-- C8: for every valid rule string `<input-ext>:<codec>:<ext>:<N>k`
(nonempty alphanumeric fields, nonempty digit bitrate), parsing it through
the `--ffmpeg` action and then looking up the declared input extension
returns exactly the declared codec, output extension, and bitrate. -/
theorem c8_parse_lookup_round_trip (i c o b : String)
    (hi : i.data ≠ []) (hialn : ∀ ch ∈ i.data, alnumChar ch = true)
    (hc : c.data ≠ []) (hcaln : ∀ ch ∈ c.data, alnumChar ch = true)
    (ho : o.data ≠ []) (hoaln : ∀ ch ∈ o.data, alnumChar ch = true)
    (hb : b.data ≠ []) (hbdig : ∀ ch ∈ b.data, digitChar ch = true) :
    parse_ffmpeg_rule (mkRuleStr i c o b) = some (i, ⟨c, o, b ++ "k"⟩) ∧
    ffmpegRuleAction [mkRuleStr i c o b] none = .ok [(i, ⟨c, o, b ++ "k"⟩)] ∧
    dictGet [(i, ⟨c, o, b ++ "k"⟩)] i = some ⟨c, o, b ++ "k"⟩ := by
  have hp := parse_mkRule i c o b hi hialn hc hcaln ho hoaln hb hbdig
  refine ⟨hp, ?_, by simp [dictGet]⟩
  simp [ffmpegRuleAction, parseRuleValues, hp, pyDict, dictMerge, dictInsert]

/-- C8 witness: the example rule `flac:libopus:ogg:128k` round-trips. -/
theorem c8_witness :
    parse_ffmpeg_rule (mkRuleStr "flac" "libopus" "ogg" "128") =
      some ("flac", ⟨"libopus", "ogg", "128" ++ "k"⟩) ∧
    ffmpegRuleAction [mkRuleStr "flac" "libopus" "ogg" "128"] none =
      .ok [("flac", ⟨"libopus", "ogg", "128" ++ "k"⟩)] ∧
    dictGet [("flac", ⟨"libopus", "ogg", "128" ++ "k"⟩)] "flac" =
      some ⟨"libopus", "ogg", "128" ++ "k"⟩ :=
  c8_parse_lookup_round_trip "flac" "libopus" "ogg" "128"
    (by decide) (by decide) (by decide) (by decide)
    (by decide) (by decide) (by decide) (by decide)

/-- C3 counterexample: two well-formed rules for the same extension given
inside a single `--ffmpeg` option: the resulting table maps `flac` to the
second-declared rule, not the first, refuting first-declared-wins within
one option's value list. -/
theorem c3_counterexample :
    ffmpegRuleAction ["flac:c1:e1:128k", "flac:c2:e2:192k"] none =
      .ok [("flac", ⟨"c2", "e2", "192k"⟩)] ∧
    dictGet [("flac", ⟨"c2", "e2", "192k"⟩)] "flac" = some ⟨"c2", "e2", "192k"⟩ ∧
    (⟨"c2", "e2", "192k"⟩ : FFRule) ≠ ⟨"c1", "e1", "128k"⟩ := by
  refine ⟨by rfl, by rfl, by decide⟩

/-- C3 (amended): on duplicate input extensions the policy is split.
Across repeated `--ffmpeg` options the first-declared rule wins (the
`(addendum, existing)` dictionary spread favors existing entries), but
inside a single option's value list the last duplicate wins (`dict()` over
the parsed pairs lets later pairs overwrite earlier ones); duplicates are
dropped silently in both cases. -/
theorem c3_amended_duplicate_policy (i c1 o1 b1 c2 o2 b2 : String)
    (hi : i.data ≠ []) (hialn : ∀ ch ∈ i.data, alnumChar ch = true)
    (hc1 : c1.data ≠ []) (hc1aln : ∀ ch ∈ c1.data, alnumChar ch = true)
    (ho1 : o1.data ≠ []) (ho1aln : ∀ ch ∈ o1.data, alnumChar ch = true)
    (hb1 : b1.data ≠ []) (hb1dig : ∀ ch ∈ b1.data, digitChar ch = true)
    (hc2 : c2.data ≠ []) (hc2aln : ∀ ch ∈ c2.data, alnumChar ch = true)
    (ho2 : o2.data ≠ []) (ho2aln : ∀ ch ∈ o2.data, alnumChar ch = true)
    (hb2 : b2.data ≠ []) (hb2dig : ∀ ch ∈ b2.data, digitChar ch = true) :
    applyFFmpegOptions [[mkRuleStr i c1 o1 b1], [mkRuleStr i c2 o2 b2]] =
      .ok [(i, ⟨c1, o1, b1 ++ "k"⟩)] ∧
    ffmpegRuleAction [mkRuleStr i c1 o1 b1, mkRuleStr i c2 o2 b2] none =
      .ok [(i, ⟨c2, o2, b2 ++ "k"⟩)] ∧
    dictGet [(i, ⟨c1, o1, b1 ++ "k"⟩)] i = some ⟨c1, o1, b1 ++ "k"⟩ ∧
    dictGet [(i, ⟨c2, o2, b2 ++ "k"⟩)] i = some ⟨c2, o2, b2 ++ "k"⟩ := by
  have hp1 := parse_mkRule i c1 o1 b1 hi hialn hc1 hc1aln ho1 ho1aln hb1 hb1dig
  have hp2 := parse_mkRule i c2 o2 b2 hi hialn hc2 hc2aln ho2 ho2aln hb2 hb2dig
  have hact1 : ffmpegRuleAction [mkRuleStr i c1 o1 b1] (some []) =
      .ok [(i, ⟨c1, o1, b1 ++ "k"⟩)] := by
    simp [ffmpegRuleAction, parseRuleValues, hp1, pyDict, dictMerge, dictInsert]
  have hact2 : ffmpegRuleAction [mkRuleStr i c2 o2 b2]
      (some [(i, ⟨c1, o1, b1 ++ "k"⟩)]) = .ok [(i, ⟨c1, o1, b1 ++ "k"⟩)] := by
    simp [ffmpegRuleAction, parseRuleValues, hp2, pyDict, dictMerge, dictInsert]
  refine ⟨?_, ?_, by simp [dictGet], by simp [dictGet]⟩
  · simp only [applyFFmpegOptions, List.foldlM, hact1, exceptBind_ok, hact2,
      exceptPure_eq_ok]
  · simp [ffmpegRuleAction, parseRuleValues, hp1, hp2, pyDict, dictMerge, dictInsert]

/-- C3 witness: concrete duplicate rules exercising both policies. -/
theorem c3_witness :
    applyFFmpegOptions [[mkRuleStr "flac" "c1" "e1" "128"], [mkRuleStr "flac" "c2" "e2" "192"]]
      = .ok [("flac", ⟨"c1", "e1", "128" ++ "k"⟩)] ∧
    ffmpegRuleAction [mkRuleStr "flac" "c1" "e1" "128", mkRuleStr "flac" "c2" "e2" "192"] none
      = .ok [("flac", ⟨"c2", "e2", "192" ++ "k"⟩)] ∧
    dictGet [("flac", ⟨"c1", "e1", "128" ++ "k"⟩)] "flac" = some ⟨"c1", "e1", "128" ++ "k"⟩ ∧
    dictGet [("flac", ⟨"c2", "e2", "192" ++ "k"⟩)] "flac" = some ⟨"c2", "e2", "192" ++ "k"⟩ :=
  c3_amended_duplicate_policy "flac" "c1" "e1" "128" "c2" "e2" "192"
    (by decide) (by decide) (by decide) (by decide) (by decide) (by decide) (by decide)
    (by decide) (by decide) (by decide) (by decide) (by decide) (by decide) (by decide)

/-- Whether the character list contains a digit immediately followed by the
literal `k` — a necessary condition for `_PATT`'s `\d+k` group to match
anywhere. -/
def hasDigitK : List Char → Bool
  | a :: b :: rest => (digitChar a && (b == 'k')) || hasDigitK (b :: rest)
  | _ => false

/-- Prepending preserves an existing digit-`k` occurrence. -/
theorem hasDigitK_cons (x : Char) (xs : List Char) (h : hasDigitK xs = true) :
    hasDigitK (x :: xs) = true := by
  cases xs with
  | nil => cases h
  | cons b bs => simp [hasDigitK, h]

/-- Appending on the left preserves an existing digit-`k` occurrence. -/
theorem hasDigitK_append_left (l r : List Char) (h : hasDigitK r = true) :
    hasDigitK (l ++ r) = true := by
  induction l with
  | nil => simpa using h
  | cons x xs ih => exact hasDigitK_cons x (xs ++ r) ih

/-- A digit directly followed by `k` witnesses `hasDigitK`. -/
theorem hasDigitK_here (d : Char) (t : List Char) (hd : digitChar d = true) :
    hasDigitK (d :: 'k' :: t) = true := by
  simp [hasDigitK, hd]

/-- A successful `matchAt` forces a digit immediately followed by `k`. -/
theorem matchAt_hasDigitK (cs : List Char)
    (g : List Char × List Char × List Char × List Char)
    (h : matchAt cs = some g) : hasDigitK cs = true := by
  obtain ⟨g1, g2, g3, g4⟩ := g
  rcases matchAt_decomp cs g1 g2 g3 g4 h with ⟨d, t, hcs, hdne, hddig, -⟩
  rcases List.eq_nil_or_concat d with rfl | ⟨d0, dl, rfl⟩
  · exact absurd rfl hdne
  · have hdl : digitChar dl = true := hddig dl (by simp)
    rw [hcs]
    have : d0.concat dl ++ 'k' :: t = d0 ++ (dl :: 'k' :: t) := by
      simp [List.concat_eq_append]
    rw [this]
    refine hasDigitK_append_left _ _ (hasDigitK_cons _ _ ?_)
    refine hasDigitK_append_left _ _ (hasDigitK_cons _ _ ?_)
    refine hasDigitK_append_left _ _ (hasDigitK_cons _ _ ?_)
    exact hasDigitK_append_left _ _ (hasDigitK_here dl t hdl)

/-- A successful `matchAt` forces at least three colons in the input. -/
theorem matchAt_count_colon (cs : List Char)
    (g : List Char × List Char × List Char × List Char)
    (h : matchAt cs = some g) : 3 ≤ cs.count ':' := by
  obtain ⟨g1, g2, g3, g4⟩ := g
  rcases matchAt_decomp cs g1 g2 g3 g4 h with ⟨d, t, hcs, -, -, -⟩
  rw [hcs]
  simp [List.count_append, List.count_cons]
  omega

/-- C4 counterexample: the rule string `flac:libopus:ogg:128k:x` has five
colon-delimited fields (an extra field), yet parsing succeeds — `findall`
matches the well-formed substring — and the `--ffmpeg` action accepts it
and adds a rule, refuting the claim that extra fields are rejected. -/
theorem c4_counterexample :
    parse_ffmpeg_rule "flac:libopus:ogg:128k:x" =
      some ("flac", ⟨"libopus", "ogg", "128k"⟩) ∧
    ffmpegRuleAction ["flac:libopus:ogg:128k:x"] none =
      .ok [("flac", ⟨"libopus", "ogg", "128k"⟩)] := by
  exact ⟨by decide, by rfl⟩

/-- C4 (amended): a rule string with missing fields (fewer than three
colons) or whose text nowhere contains a digit immediately followed by
`k` (so in particular a non-numeric bitrate such as `abck` or a missing
`k` suffix) fails to parse, the action raises the `argparse.ArgumentError`
naming the offending string, and no rule is added; however a string that
merely embeds a well-formed rule as a substring — e.g. with extra fields
appended — is accepted.  The ASCII hypothesis marks where the model's
`\d` (ASCII digits) and Python's agree. -/
theorem c4_malformed_rejected_amended (s : String) (acc : Option RuleMap)
    (_hascii : ∀ ch ∈ s.data, ch.toNat < 128)
    (h : s.data.count ':' < 3 ∨ hasDigitK s.data = false) :
    parse_ffmpeg_rule s = none ∧
    ffmpegRuleAction [s] acc = .error (ruleErrMsg s) := by
  have hp : parse_ffmpeg_rule s = none := by
    unfold parse_ffmpeg_rule
    cases hf : findFirstMatch s.data with
    | none => rfl
    | some g =>
      exfalso
      rcases findFirstMatch_decomp _ _ hf with ⟨pre, suf, hps, hm⟩
      rcases h with h | h
      · have h3 : 3 ≤ suf.count ':' := matchAt_count_colon _ _ hm
        have : 3 ≤ s.data.count ':' := by
          rw [hps, List.count_append]
          omega
        omega
      · have hsuf : hasDigitK suf = true := matchAt_hasDigitK _ _ hm
        have : hasDigitK s.data = true := by
          rw [hps]
          exact hasDigitK_append_left _ _ hsuf
        rw [h] at this
        cases this
  refine ⟨hp, ?_⟩
  simp [ffmpegRuleAction, parseRuleValues, hp]

/-- C4 witness: the missing-field string `flac:libopus:128k` (two colons)
and the missing-`k` string are rejected with the identifying error. -/
theorem c4_witness :
    parse_ffmpeg_rule "flac:libopus:128" = none ∧
    ffmpegRuleAction ["flac:libopus:128"] none =
      .error (ruleErrMsg "flac:libopus:128") :=
  c4_malformed_rejected_amended "flac:libopus:128" none (by decide)
    (Or.inl (by decide))

/-- When every element satisfies `p`, `takeWhile` keeps everything and
`dropWhile` drops everything. -/
theorem takeWhile_all (p : Char → Bool) (l : List Char) (h : ∀ ch ∈ l, p ch = true) :
    l.takeWhile p = l ∧ l.dropWhile p = [] := by
  induction l with
  | nil => simp
  | cons a as ih =>
    have ha : p a = true := h a (by simp)
    have hrest : ∀ ch ∈ as, p ch = true := fun ch hc => h ch (by simp [hc])
    rcases ih hrest with ⟨h1, h2⟩
    exact ⟨by simp [List.takeWhile_cons, ha, h1], by simp [List.dropWhile_cons, ha, h2]⟩

/-- The head of a nonempty `dropWhile` residue fails the predicate. -/
theorem dropWhile_head_false (p : Char → Bool) (l : List Char) (x : Char) (xs : List Char)
    (h : l.dropWhile p = x :: xs) : p x = false := by
  induction l with
  | nil => cases h
  | cons a as ih =>
    rw [List.dropWhile_cons] at h
    split_ifs at h with ha
    · exact ih h
    · cases h
      simpa using ha

/-- A path splits into its parent part (empty or slash-terminated) and its
slash-free final component. -/
theorem path_decomp (cs : List Char) :
    cs = parentOfPath cs ++ nameOfPath cs ∧
    (parentOfPath cs = [] ∨ ∃ pre0, parentOfPath cs = pre0 ++ [ '/' ]) ∧
    '/' ∉ nameOfPath cs := by
  refine ⟨?_, ?_, ?_⟩
  · unfold parentOfPath nameOfPath
    rw [← List.reverse_append, List.takeWhile_append_dropWhile, List.reverse_reverse]
  · unfold parentOfPath
    cases hd : cs.reverse.dropWhile (fun c => c ≠ '/') with
    | nil => exact Or.inl rfl
    | cons y ys =>
      have hy : (y ≠ '/' : Bool) = false := dropWhile_head_false _ _ _ _ hd
      have hy2 : y = '/' := by simpa using hy
      right
      exact ⟨ys.reverse, by rw [hy2, List.reverse_cons]⟩
  · intro hmem
    unfold nameOfPath at hmem
    rw [List.mem_reverse] at hmem
    have := List.mem_takeWhile_imp hmem
    simp at this

/-- A slash-free component appended to an empty or slash-terminated parent
is the final component of the result, and the parent is preserved. -/
theorem nameOfPath_append_sep (pre n : List Char)
    (hpre : pre = [] ∨ ∃ pre0, pre = pre0 ++ [ '/' ]) (hn : '/' ∉ n) :
    nameOfPath (pre ++ n) = n ∧ parentOfPath (pre ++ n) = pre := by
  have hnall : ∀ ch ∈ n.reverse, (ch ≠ '/' : Bool) = true := by
    intro ch hch
    rw [List.mem_reverse] at hch
    have : ch ≠ '/' := fun hh => hn (hh ▸ hch)
    simpa using this
  rcases hpre with rfl | ⟨pre0, rfl⟩
  · rcases takeWhile_all (fun c => c ≠ '/') n.reverse hnall with ⟨h1, h2⟩
    constructor
    · unfold nameOfPath
      rw [List.nil_append, h1, List.reverse_reverse]
    · unfold parentOfPath
      rw [List.nil_append, h2]
      rfl
  · have hrev : ((pre0 ++ [ '/' ]) ++ n).reverse = n.reverse ++ '/' :: pre0.reverse := by
      simp
    rcases takeWhile_append_stop (fun c => c ≠ '/') n.reverse '/' pre0.reverse hnall
      (by decide) with ⟨h1, h2⟩
    constructor
    · unfold nameOfPath
      rw [hrev, h1, List.reverse_reverse]
    · unfold parentOfPath
      rw [hrev, h2, List.reverse_cons, List.reverse_reverse]

/-- Unfolded form of `pySuffix`. -/
theorem pySuffix_eq (name : List Char) :
    pySuffix name =
      if (name.reverse.takeWhile (fun c => c ≠ '.')).length = name.length then []
      else if (name.reverse.takeWhile (fun c => c ≠ '.')).length = 0 then []
      else if (name.reverse.takeWhile (fun c => c ≠ '.')).length + 1 = name.length then []
      else '.' :: (name.reverse.takeWhile (fun c => c ≠ '.')).reverse := rfl

/-- A nonempty suffix decomposes its name: a nonempty stem, the last dot,
and a nonempty dot-free tail. -/
theorem pySuffix_decomp (name : List Char) (h : pySuffix name ≠ []) :
    ∃ stem post, name = stem ++ '.' :: post ∧ stem ≠ [] ∧ post ≠ [] ∧
      '.' ∉ post ∧ pySuffix name = '.' :: post := by
  rw [pySuffix_eq] at h ⊢
  split_ifs at h ⊢ with h1 h2 h3
  · exact absurd rfl h
  · exact absurd rfl h
  · exact absurd rfl h
  · have hsplit : name.reverse =
        name.reverse.takeWhile (fun c => c ≠ '.') ++
          name.reverse.dropWhile (fun c => c ≠ '.') :=
      (List.takeWhile_append_dropWhile (fun c => c ≠ '.') name.reverse).symm
    cases hd : name.reverse.dropWhile (fun c => c ≠ '.') with
    | nil =>
      exfalso
      apply h1
      rw [hd, List.append_nil] at hsplit
      calc (name.reverse.takeWhile (fun c => c ≠ '.')).length
          = name.reverse.length := by rw [← hsplit]
        _ = name.length := List.length_reverse name
    | cons y ys =>
      have hy : y = '.' := by simpa using dropWhile_head_false _ _ _ _ hd
      rw [hd, hy] at hsplit
      have hname : name = ys.reverse ++
          '.' :: (name.reverse.takeWhile (fun c => c ≠ '.')).reverse := by
        calc name = name.reverse.reverse := (List.reverse_reverse name).symm
          _ = (name.reverse.takeWhile (fun c => c ≠ '.') ++ '.' :: ys).reverse := by
              rw [← hsplit]
          _ = ('.' :: ys).reverse ++
              (name.reverse.takeWhile (fun c => c ≠ '.')).reverse := by
              rw [List.reverse_append]
          _ = ys.reverse ++
              '.' :: (name.reverse.takeWhile (fun c => c ≠ '.')).reverse := by simp
      refine ⟨ys.reverse, (name.reverse.takeWhile (fun c => c ≠ '.')).reverse,
        hname, ?_, ?_, ?_, rfl⟩
      · intro hys
        have hysnil : ys = [] := by simpa using hys
        apply h3
        have hlen2 : name.length =
            (name.reverse.takeWhile (fun c => c ≠ '.')).length + 1 := by
          conv_lhs => rw [hname, hysnil]
          simp
        omega
      · intro hpr
        apply h2
        simpa using hpr
      · intro hmem
        rw [List.mem_reverse] at hmem
        have := List.mem_takeWhile_imp hmem
        simp at this

/-- Suffix of a name of the form `stem ++ "." ++ ext` with dot-free
nonempty `ext` and nonempty `stem`. -/
theorem pySuffix_stem_ext (stem ext : List Char) (hstem : stem ≠ [])
    (hext : ext ≠ []) (hnd : '.' ∉ ext) :
    pySuffix (stem ++ '.' :: ext) = '.' :: ext := by
  have hall : ∀ ch ∈ ext.reverse, (decide (ch ≠ '.')) = true := by
    intro ch hch
    rw [List.mem_reverse] at hch
    have : ch ≠ '.' := fun hh => hnd (hh ▸ hch)
    simpa using this
  have hrev : (stem ++ '.' :: ext).reverse = ext.reverse ++ '.' :: stem.reverse := by
    simp
  rcases takeWhile_append_stop (fun c => decide (c ≠ '.')) ext.reverse '.' stem.reverse hall
    (by decide) with ⟨h1, h2⟩
  have hl : ext.reverse.length = ext.length := List.length_reverse ext
  have hlen : (stem ++ '.' :: ext).length = stem.length + ext.length + 1 := by
    simp [List.length_append]
    omega
  have hs : 0 < stem.length := List.length_pos.mpr hstem
  have he : 0 < ext.length := List.length_pos.mpr hext
  rw [pySuffix_eq, hrev, h1, if_neg (by omega), if_neg (by omega), if_neg (by omega),
    List.reverse_reverse]

/-- Stripping leading dots from a dot-free list is the identity. -/
theorem lstripDots_no_dot (l : List Char) (h : '.' ∉ l) : lstripDots l = l := by
  cases l with
  | nil => rfl
  | cons a as =>
    have ha : ¬ a = '.' := fun hh => h (by rw [hh]; exact List.mem_cons_self _ _)
    simp [lstripDots, List.dropWhile_cons, ha]

/-- Stripping leading dots from a dot followed by a dot-free tail yields
the tail. -/
theorem lstripDots_dot_cons (post : List Char) (h : '.' ∉ post) :
    lstripDots ('.' :: post) = post := by
  have h2 := lstripDots_no_dot post h
  simp only [lstripDots, List.dropWhile_cons] at h2 ⊢
  simp [h2]

/-- Lookup misses when no stored key equals the probe. -/
theorem dictGet_eq_none (m : RuleMap) (k : String) (h : ∀ p ∈ m, p.1 ≠ k) :
    dictGet m k = none := by
  induction m with
  | nil => rfl
  | cons p rest ih =>
    obtain ⟨k0, v0⟩ := p
    have hk0 : ¬ k0 = k := h (k0, v0) (by simp)
    simp only [dictGet, if_neg hk0]
    exact ih fun q hq => h q (by simp [hq])

/-- C10: the dispatcher keys the rule table with the literal suffix of the
destination, stripped only of leading dots and never lowercased; hence for
any rule table with all-lowercase keys, a file whose suffix key contains an
uppercase letter misses the table and is submitted as a Direct Copy Job
with the unmodified destination. -/
theorem c10_case_sensitive_dispatch (m : RuleMap) (src dst : String)
    (hkeys : ∀ p ∈ m, ∀ ch ∈ (p.1 : String).data, ch.isUpper = false)
    (hup : ∃ ch ∈ suffixKey dst.data, ch.isUpper = true) :
    _mycopy m src dst = Job.copyJob src dst := by
  have hnone : dictGet m ⟨suffixKey dst.data⟩ = none := by
    apply dictGet_eq_none
    intro p hp heq
    rcases hup with ⟨ch, hch, hchup⟩
    have hmem : ch ∈ (p.1 : String).data := by
      rw [heq]
      exact hch
    have := hkeys p hp ch hmem
    rw [hchup] at this
    cases this
  simp [_mycopy, hnone]

/-- C10 witness: `song.FLAC` with the lowercase rule key `flac` is
direct-copied with the unmodified destination name. -/
theorem c10_witness :
    _mycopy [("flac", ⟨"libopus", "ogg", "128k"⟩)] "in/song.FLAC" "out/song.FLAC" =
      Job.copyJob "in/song.FLAC" "out/song.FLAC" :=
  c10_case_sensitive_dispatch [("flac", ⟨"libopus", "ogg", "128k"⟩)]
    "in/song.FLAC" "out/song.FLAC" (by decide) ⟨'F', by decide, by decide⟩

/-- C5: when the destination's suffix key hits a rule of the table (rule
keys are nonempty, and rule extensions are nonempty alphanumeric strings,
as produced by parsing), `_mycopy` submits a Transcode Job whose
destination — also the `dst` recorded in the returned `JobResult`, whether
the external process succeeds or fails — is the original destination with
the rule's output extension substituted for the original extension: its
suffix is exactly `"." ++ ext`, its suffix key is exactly `ext`, and
whenever the output extension differs from the original one the original
suffix does not appear on the rewritten destination. -/
theorem c5_transcode_extension_substituted (m : RuleMap) (src dst : String) (r : FFRule)
    (runProc : List String → ProcOutcome)
    (hlook : dictGet m ⟨suffixKey dst.data⟩ = some r)
    (hkey : suffixKey dst.data ≠ [])
    (hextne : r.ext.data ≠ []) (hextaln : ∀ ch ∈ r.ext.data, alnumChar ch = true) :
    _mycopy m src dst =
      Job.transcodeJob src ⟨pyWithSuffix dst.data ('.' :: r.ext.data)⟩ r.codec r.bitrate ∧
    (ffmpeg_conv runProc src ⟨pyWithSuffix dst.data ('.' :: r.ext.data)⟩
        r.codec r.bitrate).dst = ⟨pyWithSuffix dst.data ('.' :: r.ext.data)⟩ ∧
    pySuffix (nameOfPath (pyWithSuffix dst.data ('.' :: r.ext.data))) = '.' :: r.ext.data ∧
    suffixKey (pyWithSuffix dst.data ('.' :: r.ext.data)) = r.ext.data ∧
    (r.ext.data ≠ suffixKey dst.data →
      pySuffix (nameOfPath (pyWithSuffix dst.data ('.' :: r.ext.data))) ≠
        pySuffix (nameOfPath dst.data)) := by
  have hnodot : '.' ∉ r.ext.data := fun hmem => absurd (hextaln '.' hmem) (by decide)
  have hnoslash : '/' ∉ r.ext.data := fun hmem => absurd (hextaln '/' hmem) (by decide)
  have hsufne : pySuffix (nameOfPath dst.data) ≠ [] := by
    intro hnil
    apply hkey
    unfold suffixKey
    rw [hnil]
    rfl
  obtain ⟨hsplit, hpre, hnsl⟩ := path_decomp dst.data
  obtain ⟨stem, post, hnameEq, hstemne, hpostne, hpostnd, hsufeq⟩ :=
    pySuffix_decomp (nameOfPath dst.data) hsufne
  have hwith : pyWithSuffix dst.data ('.' :: r.ext.data) =
      parentOfPath dst.data ++ (stem ++ '.' :: r.ext.data) := by
    have htake : (stem ++ '.' :: post).take
        ((stem ++ '.' :: post).length - ('.' :: post).length) = stem :=
      List.take_left' (by simp [List.length_append])
    simp only [pyWithSuffix]
    rw [hsufeq, if_neg (by simp), hnameEq, htake]
  have hnewslash : '/' ∉ stem ++ '.' :: r.ext.data := by
    intro hmem
    rcases List.mem_append.mp hmem with hmem | hmem
    · apply hnsl
      rw [hnameEq]
      exact List.mem_append.mpr (Or.inl hmem)
    · rcases List.mem_cons.mp hmem with heqc | hmem
      · exact absurd heqc (by decide)
      · exact hnoslash hmem
  obtain ⟨hnn, -⟩ := nameOfPath_append_sep (parentOfPath dst.data)
    (stem ++ '.' :: r.ext.data) hpre hnewslash
  have hsufNew : pySuffix (nameOfPath (pyWithSuffix dst.data ('.' :: r.ext.data))) =
      '.' :: r.ext.data := by
    rw [hwith, hnn]
    exact pySuffix_stem_ext stem r.ext.data hstemne hextne hnodot
  have hkeyOld : suffixKey dst.data = post := by
    unfold suffixKey
    rw [hsufeq]
    exact lstripDots_dot_cons _ hpostnd
  refine ⟨by simp [_mycopy, hlook], ?_, hsufNew, ?_, ?_⟩
  · by_cases hc : (runProc (ffmpegCmd src
        ⟨pyWithSuffix dst.data ('.' :: r.ext.data)⟩ r.codec r.bitrate)).returncode = 0 <;>
      simp [ffmpeg_conv, hc]
  · unfold suffixKey
    rw [hsufNew]
    exact lstripDots_dot_cons _ hnodot
  · intro hne
    rw [hsufNew, hsufeq]
    intro hh
    simp only [List.cons.injEq, true_and] at hh
    apply hne
    rw [hkeyOld]
    exact hh

/-- C5 witness: `out/a.flac` under rule `flac -> ogg` is transcoded to
`out/a.ogg`, the failing job still records `out/a.ogg`, and the rewritten
suffix key is `ogg`. -/
theorem c5_witness :
    _mycopy [("flac", ⟨"libopus", "ogg", "128k"⟩)] "in/a.flac" "out/a.flac" =
      Job.transcodeJob "in/a.flac" "out/a.ogg" "libopus" "128k" ∧
    (ffmpeg_conv (fun _ => { returncode := 1, stderrText := "boom" }) "in/a.flac"
        "out/a.ogg" "libopus" "128k").dst = "out/a.ogg" ∧
    suffixKey ("out/a.ogg" : String).data = ("ogg" : String).data := by
  have h := c5_transcode_extension_substituted [("flac", ⟨"libopus", "ogg", "128k"⟩)]
    "in/a.flac" "out/a.flac" ⟨"libopus", "ogg", "128k"⟩
    (fun _ => { returncode := 1, stderrText := "boom" })
    (by decide) (by decide) (by decide) (by decide)
  have hs : (⟨pyWithSuffix ("out/a.flac" : String).data
      ('.' :: (("libopus", "ogg", "128k") : String × String × String).2.1.data)⟩ : String)
      = "out/a.ogg" := by decide
  rw [show (⟨"libopus", "ogg", "128k"⟩ : FFRule).ext = "ogg" from rfl] at h
  have hs2 : (⟨pyWithSuffix ("out/a.flac" : String).data
      ('.' :: ("ogg" : String).data)⟩ : String) = "out/a.ogg" := by decide
  rw [hs2] at h
  exact ⟨h.1, h.2.1, by decide⟩
